import Mathlib

/-!
Shallow embedding of the `zoom-cleaner` transcript-cleaning pipeline
(`src/transcript_cleaner/core.py`, `src/transcript_cleaner/utils.py`,
`src/config/settings.py`) together with theorems checking the
natural-language specification against this embedding.

Texts are modelled as lists of characters (`Str`); Python's machine
strings are plain character sequences for the operations used here
(`split('\n')`, `'\n'.join`, `len`, slicing, `endswith`, `strip`).
The non-terminating chunking loop is modelled with explicit fuel:
`none` means the fuel ran out, and a result of `none` for every fuel
amount means the loop never finishes.
-/

/-- Texts, modelled as character lists. -/
abbrev Str := List Char

/-- Sum of the lengths of a list of texts. -/
def sumLens (ls : List Str) : Nat := (ls.map List.length).sum

/-- Python `text.split('\n')`: cut a text at every newline character,
keeping empty pieces (so the empty text yields one empty piece). -/
def splitLines : Str → List Str
  | [] => [[]]
  | c :: cs =>
    if c = '\n' then [] :: splitLines cs
    else
      match splitLines cs with
      | [] => [[c]]
      | l :: ls => (c :: l) :: ls

/-- Python `sep.join(pieces)`: interleave `sep` between the pieces. -/
def joinSep (sep : Str) : List Str → Str
  | [] => []
  | [x] => x
  | x :: xs => x ++ sep ++ joinSep sep xs

/-- The six ASCII whitespace characters stripped by Python `str.strip()`. -/
def isPySpace (c : Char) : Bool :=
  c == ' ' || c == '\t' || c == '\n' || c == '\r' ||
    c == Char.ofNat 11 || c == Char.ofNat 12

/-- Python `str.strip()`: drop whitespace from both ends. -/
def pyStrip (l : Str) : Str :=
  ((l.dropWhile isPySpace).reverse.dropWhile isPySpace).reverse

/-- The descending search loop of `find_overlap`
(`utils.py`, `for i in range(start, 0, -1)`): try prefix lengths
`n, n-1, …, 1` of `text2` as suffixes of `text1`. -/
def find_overlap_from (text1 text2 : Str) : Nat → Str
  | 0 => []
  | n + 1 =>
    if (text2.take (n + 1)).isSuffixOf text1 then text2.take (n + 1)
    else find_overlap_from text1 text2 n

/-- `utils.find_overlap`: longest prefix of `text2` (capped at 500
characters) that is a suffix of `text1`, searching downward from
`min 500 (min |text1| |text2|)`. -/
def find_overlap (text1 text2 : Str) : Str :=
  find_overlap_from text1 text2 (min 500 (min text1.length text2.length))

/-- The loop body of `utils.merge_segments_with_overlap`: absorb the
remaining segments one by one into the accumulated merged text. -/
def mergeLoop (merged : Str) : List Str → Str
  | [] => merged
  | seg :: rest =>
    let ov := find_overlap merged seg
    let seg' := if ov.isEmpty then seg else pyStrip (seg.drop ov.length)
    mergeLoop (merged ++ ('\n' :: '\n' :: []) ++ seg') rest

/-- `utils.merge_segments_with_overlap`: start from the first segment
and fold the rest in with overlap removal and `"\n\n"` separators. -/
def merge_segments_with_overlap (segments : List Str) : Str :=
  match segments with
  | [] => []
  | first :: rest => mergeLoop first rest

/-- Number of occurrences of `pat` as a substring of `l`
(count of starting positions). -/
def countOccs (pat l : Str) : Nat :=
  ((List.range (l.length + 1)).filter (fun i => pat.isPrefixOf (l.drop i))).length

/-- `settings.CHUNK_SIZE`. -/
def CHUNK_SIZE : Nat := 3000

/-- `settings.CHUNK_OVERLAP`. -/
def CHUNK_OVERLAP : Nat := 500

/-- A chunk record as built by `core._chunk_transcript`. -/
structure Chunk where
  index : Nat
  text : Str
  start_line : Nat
  end_line : Nat
deriving DecidableEq

/-- The backward overlap-seeding walk of `core._chunk_transcript`
(`while j >= 0 and overlap_length < CHUNK_OVERLAP`), consuming the
closed chunk's lines in reverse order. -/
def overlapWalk (overlapSize : Nat) : List Str → List Str → Nat → List Str × Nat
  | [], ov, len => (ov, len)
  | l :: rest, ov, len =>
    if len < overlapSize then overlapWalk overlapSize rest (l :: ov) (len + l.length)
    else (ov, len)

/-- The mutable state of the chunking loop in `core._chunk_transcript`. -/
structure ChunkState where
  lines : List Str
  i : Nat
  current_chunk : List Str
  current_length : Nat
  chunk_index : Nat
  chunks : List Chunk

/-- The `while i < len(lines)` loop of `core._chunk_transcript`,
with explicit fuel; `none` means the fuel was exhausted. -/
def chunkLoop (maxSize overlapSize : Nat) : Nat → ChunkState → Option (List Chunk)
  | 0, _ => none
  | fuel + 1, s =>
    if h : s.i < s.lines.length then
      if s.current_length + (s.lines.get ⟨s.i, h⟩).length ≤ maxSize then
        chunkLoop maxSize overlapSize fuel
          { s with current_chunk := s.current_chunk ++ [s.lines.get ⟨s.i, h⟩],
                   current_length := s.current_length + (s.lines.get ⟨s.i, h⟩).length,
                   i := s.i + 1 }
      else
        chunkLoop maxSize overlapSize fuel
          { s with chunks := s.chunks ++
                     [⟨s.chunk_index, joinSep ['\n'] s.current_chunk,
                       s.i - s.current_chunk.length, s.i⟩],
                   current_chunk := (overlapWalk overlapSize s.current_chunk.reverse [] 0).1,
                   current_length := (overlapWalk overlapSize s.current_chunk.reverse [] 0).2,
                   chunk_index := s.chunk_index + 1 }
    else
      some (if s.current_chunk.isEmpty then s.chunks
            else s.chunks ++
              [⟨s.chunk_index, joinSep ['\n'] s.current_chunk,
                s.lines.length - s.current_chunk.length, s.lines.length⟩])

/-- `core._chunk_transcript`, parametrised over the configured sizes
and the loop fuel. -/
def chunk_transcript (maxSize overlapSize fuel : Nat) (transcript : Str) :
    Option (List Chunk) :=
  chunkLoop maxSize overlapSize fuel ⟨splitLines transcript, 0, [], 0, 0, []⟩

/-- The context memory of `ZoomTranscriptCleaner` (`self.context_memory`):
a Python dict from chunk index to context points, modelled as an
insertion-ordered association list. -/
abbrev Ctx := List (Nat × List Str)

/-- Python `d[k]` lookup (first entry with the key; keys are unique in
every reachable dict state). -/
def ctxLookup (m : Ctx) (k : Nat) : Option (List Str) :=
  (m.find? (fun p => p.1 == k)).map (·.2)

/-- Python `d[k] = v`: overwrite in place if the key is present,
otherwise append at the end (insertion order). -/
def ctxSet (m : Ctx) (k : Nat) (v : List Str) : Ctx :=
  if m.any (fun p => p.1 == k) then
    m.map (fun p => if p.1 == k then (k, v) else p)
  else m ++ [(k, v)]

/-- Python `min` over a nonempty list of keys. -/
def listMin : List Nat → Option Nat
  | [] => none
  | x :: xs => some (xs.foldl Nat.min x)

/-- Python `del d[k]`: remove the entry with the key. -/
def ctxDel (m : Ctx) (k : Nat) : Ctx := m.eraseP (fun p => p.1 == k)

/-- `core._update_context`: store the points under the chunk index and,
if the dict then holds more than 10 entries, delete the smallest key. -/
def update_context (m : Ctx) (chunk_index : Nat) (context_points : List Str) : Ctx :=
  if (ctxSet m chunk_index context_points).length > 10 then
    match listMin ((ctxSet m chunk_index context_points).map Prod.fst) with
    | some oldest => ctxDel (ctxSet m chunk_index context_points) oldest
    | none => ctxSet m chunk_index context_points
  else ctxSet m chunk_index context_points

/-- Python `lst[-5:]`: the last five elements (all of them when there
are fewer). -/
def lastFive (l : List Str) : List Str := l.drop (l.length - 5)

/-- `core._get_context_for_chunk`: gather the stored points of the
indices `max 0 (chunk_index-3), …, chunk_index-1` in ascending order,
keep the last five, and join them with newlines. -/
def get_context_for_chunk (m : Ctx) (chunk_index : Nat) : Str :=
  joinSep ['\n']
    (lastFive (((List.range' (chunk_index - 3) (chunk_index - (chunk_index - 3))).filterMap
      (fun i => ctxLookup m i)).flatten))

/-- Pairwise-distinct keys, the invariant every Python dict state has. -/
def NodupKeys (m : Ctx) : Prop := (m.map Prod.fst).Nodup

instance (m : Ctx) : Decidable (NodupKeys m) := List.nodupDecidable _

/-- Tracker state after a sequence of `record` operations starting
from the empty memory. -/
def applyOps (ops : List (Nat × List Str)) : Ctx :=
  ops.foldl (fun m op => update_context m op.1 op.2) []

/-- A processed-chunk record as built by `core._process_single_chunk`
or by the fallback branch of `core._process_chunks_parallel`. -/
structure ProcessedChunk where
  index : Nat
  processed_text : Str
  speakers : List Str
  context_points : List Str
deriving DecidableEq

/-- The structured result of the language-model collaborator for one
chunk (the parsed `grammar_correction` fields plus the success flag),
as consumed by `core._process_single_chunk`. -/
structure LLMResult where
  success : Bool
  processed_text : Str
  speakers : List Str
  context_points : List Str

/-- `core._process_single_chunk` on a collaborator result that was
produced without raising: on success the parsed fields are used, on
reported failure the chunk's own text with empty fields.  Both paths
keep the chunk's index. -/
def process_single_chunk (res : LLMResult) (c : Chunk) : ProcessedChunk :=
  if res.success then ⟨c.index, res.processed_text, res.speakers, res.context_points⟩
  else ⟨c.index, c.text, [], []⟩

/-- `core._process_chunks_parallel`: the worker pool is modelled by a
per-chunk outcome oracle `procFn` giving what the collaborator call
inside the submitted worker does for that chunk — return a structured
result, or raise (`Except.error`).  Results are collected in submission
order (the code iterates the futures list in the order of submission);
a raising chunk is caught by the `try/except` and falls back to a record
carrying the original text with empty speakers and context points. -/
def process_chunks_parallel (procFn : Chunk → Except Str LLMResult)
    (chunks : List Chunk) : List ProcessedChunk :=
  chunks.map (fun c =>
    match procFn c with
    | .ok res => process_single_chunk res c
    | .error _ => ⟨c.index, c.text, [], []⟩)

/-- The key order used by `processed_chunks.sort(key=lambda x: x['index'])`. -/
def idxLe (a b : ProcessedChunk) : Prop := a.index ≤ b.index

instance : DecidableRel idxLe := fun a b => Nat.decLe a.index b.index

/-- Python's stable `list.sort(key=lambda x: x['index'])`, modelled as a
stable insertion sort on the index key. -/
def sort_by_index (l : List ProcessedChunk) : List ProcessedChunk :=
  l.insertionSort idxLe

/-- The quality report dictionary returned by the QA collaborators
(`quality_check` / `quality_assurance`).  Both collaborators catch every
exception internally and return a dictionary with a success flag, so the
collaborator is modelled as a total function into this type. -/
structure QAReport where
  success : Bool
  quality_score : Nat
  issues : List Str
  content_loss : Bool

/-- `core.clean_transcript`: chunk, dispatch, sort by index, merge, run
the final QA, return the merged transcript.  The chunking fuel is
explicit (the Python loop can diverge); `qaFn` is the QA collaborator. -/
def clean_transcript (fuel : Nat) (procFn : Chunk → Except Str LLMResult)
    (qaFn : Str → Str → QAReport) (transcript : Str) : Option Str :=
  match chunk_transcript CHUNK_SIZE CHUNK_OVERLAP fuel transcript with
  | none => none
  | some chunks =>
    let processed := process_chunks_parallel procFn chunks
    let sorted := sort_by_index processed
    let final_transcript := merge_segments_with_overlap (sorted.map (·.processed_text))
    let _final_qa := qaFn transcript final_transcript
    some final_transcript

example : splitLines "a\nb".toList = ["a".toList, "b".toList] := by decide

example : find_overlap "Hello world".toList "world today".toList = "world".toList := by
  decide

example :
    merge_segments_with_overlap
      ["Hello world".toList, "world today".toList, "today is great".toList] =
    "Hello world\n\ntoday\n\nis great".toList := by decide

example :
    chunk_transcript 3 0 20 "a\nb\nc\nd".toList =
    some [⟨0, "a\nb\nc".toList, 0, 3⟩, ⟨1, "d".toList, 3, 4⟩] := by decide

example : chunk_transcript 3 2 20 "abcd".toList = none := by decide

example :
    update_context [(0, ["a".toList])] 1 ["b".toList] =
    [(0, ["a".toList]), (1, ["b".toList])] := by decide

example :
    get_context_for_chunk [(0, ["p".toList, "q".toList])] 1 = "p\nq".toList := by
  decide

example :
    applyOps ((List.range 12).map (fun i => (i, ([] : List Str)))) =
    ((List.range' 2 10).map (fun i => (i, ([] : List Str)))) := by decide

/-! ### Lemmas about line splitting and joining -/

theorem splitLines_ne_nil (l : Str) : splitLines l ≠ [] := by
  cases l with
  | nil => simp [splitLines]
  | cons c cs =>
    simp only [splitLines]
    split
    · simp
    · split <;> simp

theorem splitLines_of_no_newline (l : Str) (h : '\n' ∉ l) : splitLines l = [l] := by
  induction l with
  | nil => rfl
  | cons c cs ih =>
    have hc : ¬ c = '\n' := fun hc => h (by simp [hc])
    have hcs : '\n' ∉ cs := fun hm => h (List.mem_cons_of_mem c hm)
    simp only [splitLines, if_neg hc, ih hcs]

theorem splitLines_append_newline (x r : Str) (h : '\n' ∉ x) :
    splitLines (x ++ '\n' :: r) = x :: splitLines r := by
  induction x with
  | nil => simp [splitLines]
  | cons c cs ih =>
    have hc : ¬ c = '\n' := fun hc => h (by simp [hc])
    have hcs : '\n' ∉ cs := fun hm => h (List.mem_cons_of_mem c hm)
    simp only [List.cons_append, splitLines, if_neg hc, List.append_eq, ih hcs]

theorem splitLines_joinSep (ls : List Str) (hne : ls ≠ [])
    (h : ∀ x ∈ ls, '\n' ∉ x) : splitLines (joinSep ['\n'] ls) = ls := by
  induction ls with
  | nil => exact absurd rfl hne
  | cons x xs ih =>
    cases xs with
    | nil =>
      simp only [joinSep]
      exact splitLines_of_no_newline x (h x (List.mem_cons_self x []))
    | cons y ys =>
      have hx : '\n' ∉ x := h x (List.mem_cons_self x (y :: ys))
      have : joinSep ['\n'] (x :: y :: ys) = x ++ '\n' :: joinSep ['\n'] (y :: ys) := by
        simp [joinSep]
      rw [this, splitLines_append_newline x _ hx,
        ih (by simp) (fun z hz => h z (List.mem_cons_of_mem x hz))]

theorem mem_splitLines_no_newline (t : Str) : ∀ p ∈ splitLines t, '\n' ∉ p := by
  induction t with
  | nil =>
    intro p hp
    simp only [splitLines, List.mem_singleton] at hp
    simp [hp]
  | cons c cs ih =>
    intro p hp
    simp only [splitLines] at hp
    by_cases hc : c = '\n'
    · rw [if_pos hc] at hp
      rcases List.mem_cons.mp hp with hp | hp
      · simp [hp]
      · exact ih p hp
    · rw [if_neg hc] at hp
      rcases hsplit : splitLines cs with _ | ⟨l, ls⟩
      · exact absurd hsplit (splitLines_ne_nil cs)
      · rw [hsplit] at hp
        rcases List.mem_cons.mp hp with hp | hp
        · subst hp
          intro hmem
          rcases List.mem_cons.mp hmem with hmem | hmem
          · exact hc hmem.symm
          · exact ih l (hsplit ▸ List.mem_cons_self l ls) hmem
        · exact ih p (hsplit ▸ List.mem_cons_of_mem l hp)

theorem sumLens_append (l₁ l₂ : List Str) :
    sumLens (l₁ ++ l₂) = sumLens l₁ + sumLens l₂ := by
  simp [sumLens]

theorem sumLens_reverse (l : List Str) : sumLens l.reverse = sumLens l := by
  simp [sumLens, List.map_reverse, List.sum_reverse]

/-! ### The overlap-seeding walk -/

theorem overlapWalk_spec (K : Nat) :
    ∀ (rl acc : List Str) (n : Nat), n = sumLens acc →
      (overlapWalk K rl acc n).2 = sumLens (overlapWalk K rl acc n).1 ∧
      (overlapWalk K rl acc n).2 ≤ n + sumLens rl ∧
      ∀ l ∈ (overlapWalk K rl acc n).1, l ∈ rl ∨ l ∈ acc := by
  intro rl
  induction rl with
  | nil =>
    intro acc n hn
    simp only [overlapWalk]
    exact ⟨hn, by simp [sumLens], fun l hl => Or.inr hl⟩
  | cons x xs ih =>
    intro acc n hn
    simp only [overlapWalk]
    split
    · have hrec := ih (x :: acc) (n + x.length)
        (by simp [sumLens, hn]; omega)
      refine ⟨hrec.1, le_trans hrec.2.1 (by simp [sumLens]; omega), ?_⟩
      intro l hl
      rcases hrec.2.2 l hl with h | h
      · exact Or.inl (List.mem_cons_of_mem x h)
      · rcases List.mem_cons.mp h with h | h
        · exact Or.inl (h ▸ List.mem_cons_self x xs)
        · exact Or.inr h
    · exact ⟨hn, by omega, fun l hl => Or.inr hl⟩

/-! ### Soundness of the chunking loop for the line-sum bound -/

theorem chunkLoop_line_sum (maxSize ovSize : Nat) :
    ∀ (fuel : Nat) (s : ChunkState) (cs : List Chunk),
      (∀ l ∈ s.lines, '\n' ∉ l) →
      (∀ l ∈ s.current_chunk, '\n' ∉ l) →
      sumLens s.current_chunk = s.current_length →
      s.current_length ≤ maxSize →
      (∀ c ∈ s.chunks, sumLens (splitLines c.text) ≤ maxSize) →
      chunkLoop maxSize ovSize fuel s = some cs →
      ∀ c ∈ cs, sumLens (splitLines c.text) ≤ maxSize := by
  intro fuel
  induction fuel with
  | zero => intro s cs _ _ _ _ _ h; exact absurd h (by simp [chunkLoop])
  | succ fuel ih =>
    intro s cs hlines hcc hsum hle hchunks hrun
    have hemit : sumLens (splitLines (joinSep ['\n'] s.current_chunk)) ≤ maxSize := by
      rcases hcc' : s.current_chunk with _ | ⟨x, xs⟩
      · simp [joinSep, splitLines, sumLens]
      · rw [← hcc', splitLines_joinSep s.current_chunk (by simp [hcc']) hcc]
        omega
    simp only [chunkLoop] at hrun
    by_cases hlt : s.i < s.lines.length
    · rw [dif_pos hlt] at hrun
      by_cases hfits : s.current_length + (s.lines.get ⟨s.i, hlt⟩).length ≤ maxSize
      · rw [if_pos hfits] at hrun
        refine ih _ cs ?_ ?_ ?_ ?_ ?_ hrun
        · exact hlines
        · intro l hl
          rcases List.mem_append.mp hl with hl | hl
          · exact hcc l hl
          · simp only [List.mem_singleton] at hl
            exact hl ▸ hlines _ (List.get_mem _ _ _)
        · rw [sumLens_append, hsum]
          simp [sumLens]
        · exact hfits
        · exact hchunks
      · rw [if_neg hfits] at hrun
        have how := overlapWalk_spec ovSize s.current_chunk.reverse [] 0
          (by simp [sumLens])
        rw [sumLens_reverse] at how
        refine ih _ cs ?_ ?_ ?_ ?_ ?_ hrun
        · exact hlines
        · intro l hl
          rcases how.2.2 l hl with hmem | hmem
          · exact hcc l (List.mem_reverse.mp hmem)
          · exact absurd hmem (List.not_mem_nil l)
        · exact how.1.symm
        · have h1 := how.2.1
          show (overlapWalk ovSize s.current_chunk.reverse [] 0).2 ≤ maxSize
          omega
        · intro c hc
          rcases List.mem_append.mp hc with hc | hc
          · exact hchunks c hc
          · simp only [List.mem_singleton] at hc
            rw [hc]
            exact hemit
    · rw [dif_neg hlt, Option.some.injEq] at hrun
      subst hrun
      split
      · exact hchunks
      · intro c hc
        rcases List.mem_append.mp hc with hc | hc
        · exact hchunks c hc
        · simp only [List.mem_singleton] at hc
          rw [hc]
          exact hemit

/-- Helper for C1: with a single line longer than `maxSize` the loop
re-enters the same state (nothing consumed, empty accumulation) at every
step, so it never finishes, for any fuel. -/
theorem chunkLoop_stuck_on_long_line (maxSize ovSize : Nat) (line : Str)
    (hlen : maxSize < line.length) :
    ∀ (fuel idx : Nat) (chunks : List Chunk),
      chunkLoop maxSize ovSize fuel ⟨[line], 0, [], 0, idx, chunks⟩ = none := by
  intro fuel
  induction fuel with
  | zero => intro idx chunks; rfl
  | succ fuel ih =>
    intro idx chunks
    simp only [chunkLoop]
    rw [dif_pos (by simp)]
    rw [if_neg (by simpa using by omega)]
    exact ih (idx + 1) _

/-- C1: REFUTED AS A CODE BUG.  The spec asserts the chunker always
terminates and that a single line longer than `maxSize` is emitted alone
in its own chunk.  In the code, such a line makes
`current_length + line_length <= CHUNK_SIZE` false forever while `i`
never advances and the overlap reseed stays empty, so `_chunk_transcript`
loops without terminating: the fueled model returns `none` for every
fuel amount on a 3001-character single-line transcript. -/
theorem c1_chunker_diverges_on_long_line :
    ∀ fuel : Nat,
      chunk_transcript CHUNK_SIZE CHUNK_OVERLAP fuel (List.replicate 3001 'a') = none := by
  intro fuel
  unfold chunk_transcript
  rw [splitLines_of_no_newline _
    (by intro h; rw [List.mem_replicate] at h; exact absurd h.2 (by decide))]
  exact chunkLoop_stuck_on_long_line _ _ _
    (by rw [List.length_replicate]; decide) fuel 0 []

/-- C2: COUNTEREXAMPLE to the claim as stated.  With `maxSize = 3` and
no overlap, the transcript `"a\nb\nc\nd"` (every line of length 1, so no
too-long line is involved) produces a first chunk whose text
`"a\nb\nc"` has length 5 > 3: the emitted text length counts the
`'\n'` separators, which the accumulation measure excludes. -/
theorem c2_counterexample_chunk_text_exceeds_maxSize :
    chunk_transcript 3 0 20 "a\nb\nc\nd".toList =
      some [⟨0, "a\nb\nc".toList, 0, 3⟩, ⟨1, "d".toList, 3, 4⟩] ∧
    3 < ("a\nb\nc".toList).length ∧
    ∀ l ∈ splitLines "a\nb\nc".toList, l.length ≤ 3 := by decide

/-- C2 (amended): for every input and configuration, whenever the
chunking loop terminates, each emitted chunk's cumulative line length
(the sum of the lengths of its lines, i.e. its text length excluding the
added `'\n'` separators) is at most `maxSize`; the full text length may
exceed `maxSize` only by the number of separators. -/
theorem c2_chunk_line_sum_bounded :
    ∀ (maxSize ovSize fuel : Nat) (t : Str) (cs : List Chunk),
      chunk_transcript maxSize ovSize fuel t = some cs →
      ∀ c ∈ cs, sumLens (splitLines c.text) ≤ maxSize := by
  intro maxSize ovSize fuel t cs hrun
  exact chunkLoop_line_sum maxSize ovSize fuel _ cs
    (mem_splitLines_no_newline t) (by simp) rfl (Nat.zero_le _) (by simp) hrun

/-- C2 witness: the amended bound applied at a concrete run. -/
theorem c2_chunk_line_sum_bounded_witness :
    sumLens (splitLines ("d".toList)) ≤ 3 :=
  c2_chunk_line_sum_bounded 3 0 20 ("a\nb\nc\nd".toList)
    [⟨0, "a\nb\nc".toList, 0, 3⟩, ⟨1, "d".toList, 3, 4⟩] (by decide)
    ⟨1, "d".toList, 3, 4⟩ (by decide)

/-- Helper for C4: the descending search returns the prefix of `text2`
of the greatest length in `[1, n]` that is a suffix of `text1` (and the
empty prefix when no such length exists). -/
theorem find_overlap_from_eq (a b : Str) :
    ∀ n : Nat, find_overlap_from a b n =
      b.take (Nat.findGreatest (fun j => (b.take j).isSuffixOf a = true) n) := by
  intro n
  induction n with
  | zero => rfl
  | succ n ih =>
    simp only [find_overlap_from, Nat.findGreatest_succ]
    by_cases h : (b.take (n + 1)).isSuffixOf a = true
    · rw [if_pos h, if_pos h]
    · rw [if_neg h, if_neg h, ih]

/-- C3: REFUTED AS A CODE BUG.  On the spec's own example the merge
yields `"Hello world\n\ntoday\n\nis great"`: the detected overlap
`"today"` is stripped from the last segment and the blank-line separator
is inserted in its place, so the result does not contain
`"today is great"` at all (zero occurrences, not one) — contradicting
the claim and the repository's own test `test_assembly`, which asserts
`"today is great" in result`. -/
theorem c3_merge_example_loses_contiguity :
    merge_segments_with_overlap
        ["Hello world".toList, "world today".toList, "today is great".toList] =
      "Hello world\n\ntoday\n\nis great".toList ∧
    countOccs "Hello world".toList "Hello world\n\ntoday\n\nis great".toList = 1 ∧
    countOccs "world".toList "Hello world\n\ntoday\n\nis great".toList = 1 ∧
    countOccs "today".toList "Hello world\n\ntoday\n\nis great".toList = 1 ∧
    countOccs "is great".toList "Hello world\n\ntoday\n\nis great".toList = 1 ∧
    countOccs "today is great".toList "Hello world\n\ntoday\n\nis great".toList = 0 := by
  decide

/-- C4: CONFIRMED.  `find_overlap a b` equals the prefix of `b` of the
greatest length in `[1, min 500 (min |a| |b|)]` that is a suffix of `a`
(the empty string when none exists); consequently it is a suffix of `a`
whenever nonempty, no qualifying prefix is longer than it, and
`find_overlap "abc" "xyz" = ""`. -/
theorem c4_find_overlap_longest_prefix_suffix :
    (∀ a b : Str, find_overlap a b =
        b.take (Nat.findGreatest (fun j => (b.take j).isSuffixOf a = true)
          (min 500 (min a.length b.length)))) ∧
    (∀ a b : Str, find_overlap a b ≠ [] → find_overlap a b <:+ a) ∧
    (∀ (a b : Str) (j : Nat), j ≤ min 500 (min a.length b.length) →
        b.take j <:+ a → j ≤ (find_overlap a b).length) ∧
    find_overlap "abc".toList "xyz".toList = [] := by
  refine ⟨fun a b => find_overlap_from_eq a b _, ?_, ?_, by decide⟩
  · intro a b hne
    have heq : find_overlap a b =
        b.take (Nat.findGreatest (fun j => (b.take j).isSuffixOf a = true)
          (min 500 (min a.length b.length))) := find_overlap_from_eq a b _
    rw [heq] at hne ⊢
    have hg : Nat.findGreatest (fun j => (b.take j).isSuffixOf a = true)
        (min 500 (min a.length b.length)) ≠ 0 := by
      intro h0
      rw [h0] at hne
      simp at hne
    have hP := (Nat.findGreatest_eq_iff.1 rfl).2.1 hg
    exact List.isSuffixOf_iff_suffix.mp hP
  · intro a b j hj hsuf
    have heq : find_overlap a b =
        b.take (Nat.findGreatest (fun j => (b.take j).isSuffixOf a = true)
          (min 500 (min a.length b.length))) := find_overlap_from_eq a b _
    rw [heq]
    have hle : j ≤ Nat.findGreatest (fun j => (b.take j).isSuffixOf a = true)
        (min 500 (min a.length b.length)) :=
      Nat.le_findGreatest hj (List.isSuffixOf_iff_suffix.mpr hsuf)
    have hcap := Nat.findGreatest_le (P := fun j => (b.take j).isSuffixOf a = true)
      (min 500 (min a.length b.length))
    have hblen : min 500 (min a.length b.length) ≤ b.length := by omega
    rw [List.length_take]
    omega

/-- C4 witness: the suffix property applied at the spec's boundary
example (`find_overlap "abcXYZ" "XYZdef"` is a nonempty suffix of the
first text, namely `"XYZ"`). -/
theorem c4_find_overlap_longest_prefix_suffix_witness :
    find_overlap "abcXYZ".toList "XYZdef".toList <:+ "abcXYZ".toList :=
  c4_find_overlap_longest_prefix_suffix.2.1 "abcXYZ".toList "XYZdef".toList (by decide)

/-- Helper for C5: folding one more segment onto the end of the merge
loop applies exactly one overlap-strip-append step. -/
theorem mergeLoop_snoc (s : Str) :
    ∀ (l : List Str) (acc : Str),
      mergeLoop acc (l ++ [s]) =
        mergeLoop acc l ++ ('\n' :: '\n' :: []) ++
          (if (find_overlap (mergeLoop acc l) s).isEmpty then s
           else pyStrip (s.drop (find_overlap (mergeLoop acc l) s).length)) := by
  intro l
  induction l with
  | nil => intro acc; simp [mergeLoop]
  | cons x xs ih =>
    intro acc
    simp only [List.cons_append, mergeLoop]
    exact ih _

/-- C5: CONFIRMED.  `merge_segments_with_overlap` returns `""` on the
empty list and the sole element on a singleton; every further segment is
appended to the merged text so far with a `"\n\n"` separator after
removing its detected overlap with that text and stripping the remainder
of surrounding whitespace (a segment with no detected overlap is
appended verbatim, matching the `if overlap:` guard in the source). -/
theorem c5_merge_fold_characterization :
    merge_segments_with_overlap [] = [] ∧
    (∀ a : Str, merge_segments_with_overlap [a] = a) ∧
    (∀ (ss : List Str) (s : Str), ss ≠ [] →
      merge_segments_with_overlap (ss ++ [s]) =
        merge_segments_with_overlap ss ++ ('\n' :: '\n' :: []) ++
          (if (find_overlap (merge_segments_with_overlap ss) s).isEmpty then s
           else pyStrip
             (s.drop (find_overlap (merge_segments_with_overlap ss) s).length))) := by
  refine ⟨rfl, fun a => rfl, ?_⟩
  intro ss s hne
  rcases ss with _ | ⟨first, rest⟩
  · exact absurd rfl hne
  · simp only [merge_segments_with_overlap, List.cons_append]
    exact mergeLoop_snoc s rest first

/-- C5 witness: the fold characterization applied at a concrete pair of
segments (`"ab"` then `"ba"`, overlapping in `"b"`). -/
theorem c5_merge_fold_characterization_witness :
    merge_segments_with_overlap (["ab".toList] ++ ["ba".toList]) = "ab\n\na".toList :=
  (c5_merge_fold_characterization.2.2 ["ab".toList] "ba".toList (by decide)).trans
    (by decide)

/-- Helper: a nonempty-list minimum via `foldl Nat.min` is an element
and a lower bound. -/
theorem foldl_min_spec (xs : List Nat) : ∀ x : Nat,
    (xs.foldl Nat.min x = x ∨ xs.foldl Nat.min x ∈ xs) ∧
    xs.foldl Nat.min x ≤ x ∧ (∀ y ∈ xs, xs.foldl Nat.min x ≤ y) := by
  induction xs with
  | nil => intro x; exact ⟨Or.inl rfl, Nat.le_refl x, by simp⟩
  | cons y ys ih =>
    intro x
    simp only [List.foldl_cons]
    obtain ⟨hmem, hle, hall⟩ := ih (Nat.min x y)
    have hminx : Nat.min x y ≤ x := min_le_left x y
    have hminy : Nat.min x y ≤ y := min_le_right x y
    refine ⟨?_, Nat.le_trans hle hminx, ?_⟩
    · rcases hmem with h1 | h1
      · rcases Nat.le_total x y with hxy | hxy
        · exact Or.inl (h1.trans (min_eq_left hxy))
        · right
          have hm : Nat.min x y = y := min_eq_right hxy
          rw [h1, hm]
          exact List.mem_cons_self y ys
      · exact Or.inr (List.mem_cons_of_mem y h1)
    · intro z hz
      rcases List.mem_cons.mp hz with hz | hz
      · subst hz
        exact Nat.le_trans hle hminy
      · exact hall z hz

/-- Helper: `listMin` returns a member that bounds every element. -/
theorem listMin_spec (l : List Nat) (m : Nat) (h : listMin l = some m) :
    m ∈ l ∧ ∀ y ∈ l, m ≤ y := by
  rcases l with _ | ⟨x, xs⟩
  · exact absurd h (by simp [listMin])
  · simp only [listMin, Option.some.injEq] at h
    obtain ⟨hmem, hle, hall⟩ := foldl_min_spec xs x
    subst h
    constructor
    · rcases hmem with h1 | h1
      · rw [h1]
        exact List.mem_cons_self x xs
      · exact List.mem_cons_of_mem x h1
    · intro y hy
      rcases List.mem_cons.mp hy with hy | hy
      · exact hy ▸ hle
      · exact hall y hy

/-- Helper: `listMin` is defined on every nonempty list. -/
theorem listMin_isSome (l : List Nat) (h : l ≠ []) : ∃ m, listMin l = some m := by
  rcases l with _ | ⟨x, xs⟩
  · exact absurd rfl h
  · exact ⟨xs.foldl Nat.min x, rfl⟩

/-- Helper: writing one key grows the dict by at most one entry. -/
theorem ctxSet_length_le (m : Ctx) (k : Nat) (v : List Str) :
    (ctxSet m k v).length ≤ m.length + 1 := by
  unfold ctxSet
  split
  · simp
  · simp

/-- Helper: one `record` call keeps the tracker at ≤ 10 entries. -/
theorem update_context_length_le (m : Ctx) (k : Nat) (v : List Str)
    (h : m.length ≤ 10) : (update_context m k v).length ≤ 10 := by
  unfold update_context
  have hlen := ctxSet_length_le m k v
  by_cases hgt : (ctxSet m k v).length > 10
  · rw [if_pos hgt]
    have hne : (ctxSet m k v).map Prod.fst ≠ [] := by
      intro h0
      have h1 : (ctxSet m k v).length = 0 := by
        have h2 := congrArg List.length h0
        simpa using h2
      omega
    obtain ⟨mn, hmn⟩ := listMin_isSome _ hne
    rw [hmn]
    obtain ⟨hmem, _⟩ := listMin_spec _ _ hmn
    obtain ⟨p, hp, hpk⟩ := List.mem_map.mp hmem
    show (ctxDel (ctxSet m k v) mn).length ≤ 10
    unfold ctxDel
    rw [List.length_eraseP_of_mem hp (by simp [hpk])]
    omega
  · rw [if_neg hgt]
    omega

/-- Helper: after erasing the (unique) entry with a present key, no
entry with that key remains. -/
theorem eraseP_key_gone (key : Nat) :
    ∀ l : Ctx, (l.map Prod.fst).Nodup → (∃ q ∈ l, q.1 = key) →
      ∀ p ∈ l.eraseP (fun q => q.1 == key), p.1 ≠ key := by
  intro l
  induction l with
  | nil =>
    intro _ hex
    obtain ⟨q, hq, _⟩ := hex
    exact absurd hq (List.not_mem_nil q)
  | cons a l ih =>
    intro hnd hex p hp
    simp only [List.map_cons, List.nodup_cons] at hnd
    by_cases ha : a.1 == key
    · simp only [List.eraseP_cons, ha, cond_true] at hp
      have hkey : a.1 = key := by simpa using ha
      intro hpk
      exact hnd.1 (hkey ▸ hpk ▸ List.mem_map_of_mem Prod.fst hp)
    · simp only [List.eraseP_cons, ha, cond_false] at hp
      rcases List.mem_cons.mp hp with hp | hp
      · intro hpk
        exact absurd (by simpa using (hp ▸ hpk : a.1 = key)) (by simpa using ha)
      · refine ih hnd.2 ?_ p hp
        obtain ⟨q, hq, hqk⟩ := hex
        rcases List.mem_cons.mp hq with hq | hq
        · exact absurd (by simpa using (hq ▸ hqk : a.1 = key)) (by simpa using ha)
        · exact ⟨q, hq, hqk⟩

/-- C7: CONFIRMED.  Starting from the empty memory, after any sequence
of `record` operations the tracker holds at most 10 entries; and
whenever one write makes the dict exceed 10 entries, the eviction
removes precisely the entry with the globally smallest key. -/
theorem c7_tracker_bounded_evicts_smallest :
    (∀ ops : List (Nat × List Str), (applyOps ops).length ≤ 10) ∧
    (∀ (m : Ctx) (k : Nat) (v : List Str) (mn : Nat),
      listMin ((ctxSet m k v).map Prod.fst) = some mn →
      (ctxSet m k v).length > 10 →
      NodupKeys (ctxSet m k v) →
      update_context m k v = ctxDel (ctxSet m k v) mn ∧
      (∀ p ∈ update_context m k v, p.1 ≠ mn) ∧
      (∀ y ∈ (ctxSet m k v).map Prod.fst, mn ≤ y)) := by
  constructor
  · intro ops
    have : ∀ (os : List (Nat × List Str)) (m : Ctx), m.length ≤ 10 →
        (os.foldl (fun m op => update_context m op.1 op.2) m).length ≤ 10 := by
      intro os
      induction os with
      | nil => intro m h; exact h
      | cons op os ih =>
        intro m h
        exact ih _ (update_context_length_le m op.1 op.2 h)
    exact this ops [] (by simp)
  · intro m k v mn hmn hgt hnd
    have hupd : update_context m k v = ctxDel (ctxSet m k v) mn := by
      unfold update_context
      rw [if_pos hgt, hmn]
    obtain ⟨hmem, hall⟩ := listMin_spec _ _ hmn
    obtain ⟨q, hq, hqk⟩ := List.mem_map.mp hmem
    refine ⟨hupd, ?_, hall⟩
    intro p hp
    rw [hupd] at hp
    exact eraseP_key_gone mn (ctxSet m k v) hnd ⟨q, hq, hqk⟩ p hp

/-- C7 witness: the bound after twelve recordings, and the eviction
fact at a concrete overflow (keys 0..9 resident, key 10 written,
key 0 — the smallest — evicted). -/
theorem c7_tracker_bounded_evicts_smallest_witness :
    (applyOps ((List.range 12).map (fun i => (i, ([] : List Str))))).length ≤ 10 ∧
    update_context ((List.range 10).map (fun i => (i, ([] : List Str)))) 10 [] =
      ctxDel (ctxSet ((List.range 10).map (fun i => (i, ([] : List Str)))) 10 []) 0 := by
  constructor
  · exact c7_tracker_bounded_evicts_smallest.1 _
  · exact (c7_tracker_bounded_evicts_smallest.2
      ((List.range 10).map (fun i => (i, ([] : List Str)))) 10 [] 0
      (by decide) (by decide) (by decide)).1

/-- C10: CONFIRMED.  When the tracker already holds 10 entries and
`record` is called with a fresh key smaller than every resident key,
the appended entry is itself the minimum and is deleted again at once:
the call leaves the memory unchanged and the new points are dropped. -/
theorem c10_record_below_all_keys_is_noop :
    ∀ (m : Ctx) (k : Nat) (v : List Str),
      NodupKeys m → m.length = 10 → (∀ p ∈ m, k < p.1) →
      update_context m k v = m := by
  intro m k v hnd hlen hlt
  have hnotin : m.any (fun p => p.1 == k) = false := by
    simp only [List.any_eq_false]
    intro p hp
    simp [Nat.ne_of_gt (hlt p hp)]
  have hset : ctxSet m k v = m ++ [(k, v)] := by
    unfold ctxSet
    rw [if_neg (by simp [hnotin])]
  have hsetlen : (ctxSet m k v).length = 11 := by
    rw [hset]
    simp [hlen]
  obtain ⟨mn, hmn⟩ := listMin_isSome ((ctxSet m k v).map Prod.fst)
    (by intro h0; have := congrArg List.length h0; simp [hsetlen] at this)
  obtain ⟨hmem, hall⟩ := listMin_spec _ _ hmn
  have hmnk : mn = k := by
    have h1 : mn ≤ k := hall k (by simp [hset])
    have h2 : k ≤ mn := by
      obtain ⟨p, hp, hpk⟩ := List.mem_map.mp hmem
      rw [hset] at hp
      rcases List.mem_append.mp hp with hp | hp
      · exact hpk ▸ Nat.le_of_lt (hlt p hp)
      · simp only [List.mem_singleton] at hp
        rw [hp] at hpk
        omega
    omega
  unfold update_context
  rw [if_pos (by omega), hmn, hmnk, hset]
  show List.eraseP (fun p => p.1 == k) (m ++ [(k, v)]) = m
  rw [List.eraseP_append_right _ (by
    intro p hp
    simp [Nat.ne_of_gt (hlt p hp)])]
  simp

/-- C10 witness: the no-op applied at a concrete full tracker (keys
1..10) and the fresh smaller key 0. -/
theorem c10_record_below_all_keys_is_noop_witness :
    update_context ((List.range' 1 10).map (fun i => (i, ([] : List Str)))) 0
      ["dropped".toList] =
      ((List.range' 1 10).map (fun i => (i, ([] : List Str)))) :=
  c10_record_below_all_keys_is_noop _ 0 _ (by decide) (by decide) (by decide)

/-- C8: CONFIRMED.  For every chunk list and every per-chunk outcome of
the worker's collaborator call (returning a structured result or
raising), the dispatcher emits exactly one `ProcessedChunk` per input
chunk, in the same order with the same indices (hence in index order
whenever the input is); a chunk whose processing raises, or whose
collaborator reports failure, contributes a record with that chunk's
original text, empty speakers and empty context points — never a
dropped chunk or an aborted run. -/
theorem c8_dispatcher_per_chunk_fallback :
    ∀ (procFn : Chunk → Except Str LLMResult) (chunks : List Chunk),
      (process_chunks_parallel procFn chunks).length = chunks.length ∧
      (process_chunks_parallel procFn chunks).map (·.index) = chunks.map (·.index) ∧
      (List.Pairwise (· ≤ ·) (chunks.map (·.index)) →
        List.Pairwise (· ≤ ·) ((process_chunks_parallel procFn chunks).map (·.index))) ∧
      (∀ (n : Nat) (c : Chunk), chunks[n]? = some c →
        (∀ e : Str, procFn c = .error e →
          (process_chunks_parallel procFn chunks)[n]? = some ⟨c.index, c.text, [], []⟩) ∧
        (∀ res : LLMResult, procFn c = .ok res → res.success = false →
          (process_chunks_parallel procFn chunks)[n]? =
            some ⟨c.index, c.text, [], []⟩)) := by
  intro procFn chunks
  have hmap : (process_chunks_parallel procFn chunks).map (·.index) =
      chunks.map (·.index) := by
    unfold process_chunks_parallel
    rw [List.map_map]
    apply List.map_congr_left
    intro c _
    rcases hf : procFn c with res | res
    · simp [Function.comp, hf]
    · simp only [Function.comp, hf]
      unfold process_single_chunk
      split <;> rfl
  refine ⟨by simp [process_chunks_parallel], hmap, fun h => hmap ▸ h, ?_⟩
  intro n c hn
  constructor
  · intro e hf
    unfold process_chunks_parallel
    rw [List.getElem?_map, hn]
    simp [hf]
  · intro res hf hsucc
    unfold process_chunks_parallel
    rw [List.getElem?_map, hn]
    simp [hf, process_single_chunk, hsucc]

/-- C8 witness: the fallback record at a concrete raising chunk. -/
theorem c8_dispatcher_per_chunk_fallback_witness :
    (process_chunks_parallel (fun _ => .error "boom".toList)
        [⟨0, "raw text".toList, 0, 1⟩])[0]? =
      some ⟨0, "raw text".toList, [], []⟩ :=
  ((c8_dispatcher_per_chunk_fallback (fun _ => .error "boom".toList)
      [⟨0, "raw text".toList, 0, 1⟩]).2.2.2 0 ⟨0, "raw text".toList, 0, 1⟩
    rfl).1 "boom".toList rfl

/-- C9: CONFIRMED.  Whenever the pipeline completes, `clean_transcript`
returns exactly the merged transcript assembled from the sorted
processed chunks, and its return value is the same for every quality
checker: the QA collaborators catch all their exceptions internally and
return a report dictionary, which `clean_transcript` computes and then
ignores, so the QA outcome can neither alter nor discard the merged
text. -/
theorem c9_clean_returns_merged_text_independent_of_qa :
    ∀ (fuel : Nat) (procFn : Chunk → Except Str LLMResult)
      (qaFn qaFn' : Str → Str → QAReport) (t : Str),
      clean_transcript fuel procFn qaFn t = clean_transcript fuel procFn qaFn' t ∧
      (∀ chunks : List Chunk,
        chunk_transcript CHUNK_SIZE CHUNK_OVERLAP fuel t = some chunks →
        clean_transcript fuel procFn qaFn t =
          some (merge_segments_with_overlap
            ((sort_by_index (process_chunks_parallel procFn chunks)).map
              (·.processed_text)))) := by
  intro fuel procFn qaFn qaFn' t
  constructor
  · unfold clean_transcript
    rcases chunk_transcript CHUNK_SIZE CHUNK_OVERLAP fuel t with _ | chunks
    · rfl
    · rfl
  · intro chunks hch
    unfold clean_transcript
    rw [hch]

/-- C9 witness: the pipeline applied end to end on a one-line
transcript with a successful mock collaborator and an arbitrary QA
function. -/
theorem c9_clean_returns_merged_text_independent_of_qa_witness :
    clean_transcript 10 (fun _ => .ok ⟨true, "Cleaned.".toList, [], []⟩)
      (fun _ _ => ⟨false, 0, [], true⟩) "hi there".toList =
      some "Cleaned.".toList :=
  ((c9_clean_returns_merged_text_independent_of_qa 10
      (fun _ => .ok ⟨true, "Cleaned.".toList, [], []⟩)
      (fun _ _ => ⟨false, 0, [], true⟩) (fun _ _ => ⟨true, 100, [], false⟩)
      "hi there".toList).2
    [⟨0, "hi there".toList, 0, 1⟩] (by decide)).trans (by decide)

/-- Ascending key order on tracker entries. -/
def keyLe (a b : Nat × List Str) : Prop := a.1 ≤ b.1

instance : DecidableRel keyLe := fun a b => Nat.decLe a.1 b.1

instance : IsTotal (Nat × List Str) keyLe := ⟨fun a b => Nat.le_total a.1 b.1⟩

instance : IsTrans (Nat × List Str) keyLe := ⟨fun _ _ _ h1 h2 => Nat.le_trans h1 h2⟩

/-- Strict ascending key order on tracker entries. -/
def keyLt (a b : Nat × List Str) : Prop := a.1 < b.1

instance : IsAntisymm (Nat × List Str) keyLt :=
  ⟨fun _ _ h1 h2 => absurd (Nat.lt_trans h1 h2) (Nat.lt_irrefl _)⟩

/-- C6 spec-side definition of `contextFor`, following the claim's
words: take the tracker entries whose key lies in `[index-3, index-1]`
inclusive (over the naturals the lower bound reads `index ≤ key + 3`),
present them in key-ascending order, flatten their point lists in that
order, keep only the last five points, and join with newline
separators; the empty string when no entry is in range. -/
def contextForSpec (m : Ctx) (index : Nat) : Str :=
  joinSep ['\n'] (lastFive
    ((((m.filter (fun p => decide (index ≤ p.1 + 3 ∧ p.1 < index))).insertionSort
        keyLe).map Prod.snd).flatten))

/-- Helper: `Pairwise` transports through `filterMap`. -/
theorem pairwise_filterMap_of_pairwise {α β : Type} (R : α → α → Prop)
    (S : β → β → Prop) (f : α → Option β)
    (hf : ∀ a b : α, R a b → ∀ c, f a = some c → ∀ d, f b = some d → S c d) :
    ∀ l : List α, l.Pairwise R → (l.filterMap f).Pairwise S := by
  intro l
  induction l with
  | nil => simp
  | cons a l ih =>
    intro h
    rw [List.pairwise_cons] at h
    rw [List.filterMap_cons]
    rcases hfa : f a with _ | c
    · exact ih h.2
    · rw [List.pairwise_cons]
      refine ⟨?_, ih h.2⟩
      intro d hd
      obtain ⟨b, hb, hfb⟩ := List.mem_filterMap.mp hd
      exact hf a b (h.1 b hb) c hfa d hfb

/-- Helper: in a dict with pairwise-distinct keys, looking up the key
of a member finds exactly that member. -/
theorem find?_key_of_mem (m : Ctx) (hnd : NodupKeys m) (x : Nat × List Str)
    (hx : x ∈ m) : m.find? (fun p => p.1 == x.1) = some x := by
  induction m with
  | nil => exact absurd hx (List.not_mem_nil x)
  | cons a l ih =>
    unfold NodupKeys at hnd
    simp only [List.map_cons, List.nodup_cons] at hnd
    rcases List.mem_cons.mp hx with hx | hx
    · subst hx
      rw [List.find?_cons_of_pos _ (by simp)]
    · have hne : (a.1 == x.1) = false := by
        rw [beq_eq_false_iff_ne]
        intro hkey
        exact hnd.1 (hkey ▸ List.mem_map_of_mem Prod.fst hx)
      rw [List.find?_cons_of_neg _ (by simp [hne])]
      exact ih hnd.2 hx

/-- Helper for C6: enumerating the three-index window in ascending
range order through the dict yields exactly the dict's in-range entries
sorted by key. -/
theorem window_filterMap_eq_insertionSort (m : Ctx) (idx : Nat) (hnd : NodupKeys m) :
    (List.range' (idx - 3) (idx - (idx - 3))).filterMap
        (fun i => m.find? (fun p => p.1 == i)) =
      (m.filter (fun p => decide (idx ≤ p.1 + 3 ∧ p.1 < idx))).insertionSort keyLe := by
  have hrange_sum : (idx - 3) + (idx - (idx - 3)) = idx := by omega
  have hmemL : ∀ x : Nat × List Str,
      x ∈ (List.range' (idx - 3) (idx - (idx - 3))).filterMap
        (fun i => m.find? (fun p => p.1 == i)) ↔
      x ∈ m ∧ (idx ≤ x.1 + 3 ∧ x.1 < idx) := by
    intro x
    rw [List.mem_filterMap]
    constructor
    · rintro ⟨i, hi, hfind⟩
      have hxm : x ∈ m := List.mem_of_find?_eq_some hfind
      have hkey : x.1 = i := by simpa using List.find?_some hfind
      have hib := List.mem_range'_1.mp hi
      rw [hrange_sum] at hib
      exact ⟨hxm, by omega⟩
    · rintro ⟨hxm, hb⟩
      refine ⟨x.1, ?_, find?_key_of_mem m hnd x hxm⟩
      rw [List.mem_range'_1, hrange_sum]
      omega
  have hsortL : ((List.range' (idx - 3) (idx - (idx - 3))).filterMap
      (fun i => m.find? (fun p => p.1 == i))).Pairwise keyLt := by
    refine pairwise_filterMap_of_pairwise (· < ·) keyLt _ ?_ _
      (List.pairwise_lt_range' _ _ 1 (by omega))
    intro a b hab c hc d hd
    have hc1 : c.1 = a := by simpa using List.find?_some hc
    have hd1 : d.1 = b := by simpa using List.find?_some hd
    unfold keyLt
    omega
  have hm_pairwise : m.Pairwise (fun a b => a.1 ≠ b.1) := by
    have h0 : (m.map Prod.fst).Pairwise (· ≠ ·) := hnd
    exact List.pairwise_map.mp h0
  have hfilter_pairwise :
      (m.filter (fun p => decide (idx ≤ p.1 + 3 ∧ p.1 < idx))).Pairwise
        (fun a b => a.1 ≠ b.1) :=
    hm_pairwise.filter _
  have hsorted : ((m.filter (fun p => decide (idx ≤ p.1 + 3 ∧ p.1 < idx))).insertionSort
      keyLe).Pairwise keyLe := List.sorted_insertionSort keyLe _
  have hperm0 := List.perm_insertionSort keyLe
    (m.filter (fun p => decide (idx ≤ p.1 + 3 ∧ p.1 < idx)))
  have hneR : ((m.filter (fun p => decide (idx ≤ p.1 + 3 ∧ p.1 < idx))).insertionSort
      keyLe).Pairwise (fun a b => a.1 ≠ b.1) :=
    (hperm0.pairwise_iff (fun h => Ne.symm h)).mpr hfilter_pairwise
  have hsortR : ((m.filter (fun p => decide (idx ≤ p.1 + 3 ∧ p.1 < idx))).insertionSort
      keyLe).Pairwise keyLt :=
    (hsorted.and hneR).imp (fun h => Nat.lt_of_le_of_ne h.1 h.2)
  have hkeyLt_ne : ∀ {a b : Nat × List Str}, keyLt a b → a ≠ b := by
    intro a b h heq
    rw [heq] at h
    exact Nat.lt_irrefl _ h
  have hndL := hsortL.imp hkeyLt_ne
  have hndR := hsortR.imp hkeyLt_ne
  have hperm : ((List.range' (idx - 3) (idx - (idx - 3))).filterMap
      (fun i => m.find? (fun p => p.1 == i))).Perm
      ((m.filter (fun p => decide (idx ≤ p.1 + 3 ∧ p.1 < idx))).insertionSort keyLe) := by
    refine (List.perm_ext_iff_of_nodup hndL hndR).mpr ?_
    intro x
    rw [hmemL x, hperm0.mem_iff, List.mem_filter]
    simp
  exact List.eq_of_perm_of_sorted hperm hsortL hsortR

/-- C6: CONFIRMED.  For every tracker state with distinct keys (every
Python dict state) and every index, `contextFor` returns exactly what
the claim describes: the points of the entries with keys in
`[index-3, index-1]`, concatenated in key-ascending order, reduced to
the last five, joined with newlines — in particular the empty string
when no entry lies in that range, and never any points recorded at a
key ≥ index (such entries are outside the filter). -/
theorem c6_context_for_chunk_matches_spec :
    ∀ (m : Ctx) (idx : Nat), NodupKeys m →
      get_context_for_chunk m idx = contextForSpec m idx ∧
      ((∀ p ∈ m, ¬(idx ≤ p.1 + 3 ∧ p.1 < idx)) →
        get_context_for_chunk m idx = []) := by
  intro m idx hnd
  have hflat : (List.range' (idx - 3) (idx - (idx - 3))).filterMap
      (fun i => ctxLookup m i) =
      ((m.filter (fun p => decide (idx ≤ p.1 + 3 ∧ p.1 < idx))).insertionSort
        keyLe).map Prod.snd := by
    rw [← window_filterMap_eq_insertionSort m idx hnd, List.map_filterMap]
    rfl
  have heq : get_context_for_chunk m idx = contextForSpec m idx := by
    unfold get_context_for_chunk contextForSpec
    rw [hflat]
  refine ⟨heq, ?_⟩
  intro hnone
  rw [heq]
  unfold contextForSpec
  have hfil : m.filter (fun p => decide (idx ≤ p.1 + 3 ∧ p.1 < idx)) = [] := by
    rw [List.filter_eq_nil_iff]
    intro p hp
    simpa using hnone p hp
  rw [hfil]
  rfl

/-- C6 witness: the characterization applied at a concrete unordered
two-entry tracker and index 3 (key 1 in range, key 5 outside). -/
theorem c6_context_for_chunk_matches_spec_witness :
    get_context_for_chunk [(5, ["x".toList]), (1, ["y".toList])] 3 =
      contextForSpec [(5, ["x".toList]), (1, ["y".toList])] 3 :=
  (c6_context_for_chunk_matches_spec [(5, ["x".toList]), (1, ["y".toList])] 3
    (by decide)).1
